import Mathlib

/-
Verification of the pdf-apps repository against its specification.

The development shallowly embeds the arithmetic cores of the scripts:
  * PDF_Merger.py            : alternating-page merge of two documents
  * PDF_Splitter.py          : positional page splitting, absolute offsets
  * Pdf_splitter.py          : positional page splitting, percentage offsets
  * pdf_processor_app.py     : logo masking and whitespace autocrop
  * Pdf_cropper.py           : logo masking and whitespace autocrop (variant)

Documents are lists of pages, images are rectangular lists of RGB pixels
with natural-number channels, and page geometry is exact rational
arithmetic.  Each definition is translated from the corresponding Python
function; slicing, numpy reductions and PIL drawing are modelled at the
level of lists.
-/

namespace Spec2Proof

/-! ## Documents and the alternating merge (src/PDF_Merger.py) -/

section Merger

variable {α : Type}

/-- Embeds the page loop of merge_pdfs_alternating (src/PDF_Merger.py,
lines 49-60): for i in range(max(n, m)), append page i of the first
document when it exists, then page i of the second when it exists. -/
def mergeAlternating (A B : List α) : List α :=
  (List.range (max A.length B.length)).flatMap
    (fun i => (A.get? i).toList ++ (B.get? i).toList)

/-- Structural form of the alternating merge, used to reason by induction;
proved equal to mergeAlternating below. -/
def interleave : List α → List α → List α
  | [], B => B
  | a :: A, [] => a :: A
  | a :: A, b :: B => a :: b :: interleave A B

theorem flatMap_map_succ (l : List Nat) (f : Nat → List α) :
    (l.map Nat.succ).flatMap f = l.flatMap (fun i => f (i + 1)) := by
  induction l with
  | nil => simp
  | cons a t ih => simp [List.flatMap_cons, ih]

theorem flatMap_range_succ_shift (n : Nat) (f : Nat → List α) :
    (List.range (n + 1)).flatMap f
      = f 0 ++ (List.range n).flatMap (fun i => f (i + 1)) := by
  rw [List.range_succ_eq_map]
  simp only [List.flatMap_cons]
  rw [flatMap_map_succ]

theorem flatMap_range_get?_toList (l : List α) :
    (List.range l.length).flatMap (fun i => (l.get? i).toList) = l := by
  induction l with
  | nil => simp
  | cons a t ih =>
      rw [List.length_cons, flatMap_range_succ_shift]
      simpa using ih

theorem mergeAlternating_nil_left (B : List α) :
    mergeAlternating [] B = B := by
  unfold mergeAlternating
  simpa using flatMap_range_get?_toList B

theorem mergeAlternating_nil_right (A : List α) :
    mergeAlternating A [] = A := by
  unfold mergeAlternating
  simpa using flatMap_range_get?_toList A

theorem mergeAlternating_cons_cons (a b : α) (A B : List α) :
    mergeAlternating (a :: A) (b :: B) = a :: b :: mergeAlternating A B := by
  unfold mergeAlternating
  rw [List.length_cons, List.length_cons, Nat.succ_max_succ,
    flatMap_range_succ_shift]
  simp

theorem mergeAlternating_eq_interleave (A B : List α) :
    mergeAlternating A B = interleave A B := by
  induction A generalizing B with
  | nil => cases B <;> simp [interleave, mergeAlternating_nil_left]
  | cons a A ih =>
      cases B with
      | nil => simp [interleave, mergeAlternating_nil_right]
      | cons b B => rw [mergeAlternating_cons_cons, ih, interleave]

theorem interleave_length (A B : List α) :
    (interleave A B).length = A.length + B.length := by
  induction A generalizing B with
  | nil => simp [interleave]
  | cons a A ih =>
      cases B with
      | nil => simp [interleave]
      | cons b B =>
          simp only [interleave, List.length_cons, ih]
          omega

theorem interleave_get? (A B : List α) (k : Nat) :
    (interleave A B).get? k =
      if k < 2 * min A.length B.length then
        (if k % 2 = 0 then A.get? (k / 2) else B.get? ((k - 1) / 2))
      else if A.length ≤ B.length then B.get? (k - A.length)
      else A.get? (k - B.length) := by
  induction A generalizing B k with
  | nil => simp [interleave]
  | cons a A ih =>
      cases B with
      | nil =>
          have hnle : ¬ (a :: A).length ≤ ([] : List α).length := by
            simp
          simp [interleave, hnle]
      | cons b B =>
          have hmin : min (a :: A).length (b :: B).length
              = min A.length B.length + 1 := by
            simp [Nat.succ_min_succ]
          match k with
          | 0 =>
              rw [if_pos (by rw [hmin]; omega)]
              simp [interleave]
          | 1 =>
              rw [if_pos (by rw [hmin]; omega)]
              simp [interleave]
          | (k + 2) =>
              have hstep : (interleave (a :: A) (b :: B)).get? (k + 2)
                  = (interleave A B).get? k := by
                rw [interleave]
                rfl
              rw [hstep, ih]
              by_cases hlt : k < 2 * min A.length B.length
              · have hlt2 : k + 2 < 2 * min (a :: A).length (b :: B).length := by
                  rw [hmin]; omega
                rw [if_pos hlt, if_pos hlt2]
                have hmod : (k + 2) % 2 = k % 2 := by omega
                by_cases he : k % 2 = 0
                · have he2 : (k + 2) % 2 = 0 := by omega
                  rw [if_pos he, if_pos he2]
                  have hdiv : (k + 2) / 2 = k / 2 + 1 := by omega
                  rw [hdiv]
                  rfl
                · have he2 : ¬ (k + 2) % 2 = 0 := by omega
                  rw [if_neg he, if_neg he2]
                  have hdiv : (k + 2 - 1) / 2 = (k - 1) / 2 + 1 := by omega
                  rw [hdiv]
                  rfl
              · have hlt2 : ¬ k + 2 < 2 * min (a :: A).length (b :: B).length := by
                  rw [hmin]; omega
                rw [if_neg hlt, if_neg hlt2]
                by_cases hle : A.length ≤ B.length
                · have hle2 : (a :: A).length ≤ (b :: B).length := by
                    simp [hle]
                  rw [if_pos hle, if_pos hle2]
                  have hsub : k + 2 - (a :: A).length = (k - A.length) + 1 := by
                    simp only [List.length_cons]
                    omega
                  rw [hsub]
                  rfl
                · have hle2 : ¬ (a :: A).length ≤ (b :: B).length := by
                    simp [hle]
                  rw [if_neg hle, if_neg hle2]
                  have hsub : k + 2 - (b :: B).length = (k - B.length) + 1 := by
                    simp only [List.length_cons]
                    omega
                  rw [hsub]
                  rfl

/-- Claim C1 (amended).  The alternating merge of documents A (n pages) and
B (m pages) has exactly n + m pages.  For k below 2 * min n m the output
alternates: page k is A-page k/2 when k is even and B-page (k-1)/2 when k
is odd.  From index 2 * min n m on, page k is page (k - min n m) of the
input that still has pages; no blank page is inserted. -/
theorem merge_alternating_pages (A B : List α) :
    (mergeAlternating A B).length = A.length + B.length ∧
    ∀ k : Nat, (mergeAlternating A B).get? k =
      if k < 2 * min A.length B.length then
        (if k % 2 = 0 then A.get? (k / 2) else B.get? ((k - 1) / 2))
      else if A.length ≤ B.length then B.get? (k - A.length)
      else A.get? (k - B.length) := by
  rw [mergeAlternating_eq_interleave]
  exact ⟨interleave_length A B, fun k => interleave_get? A B k⟩

/-- Claim C1 counterexample.  For A with 1 page and B with 3 pages the
merged output is A0, B0, B1, B2.  Output index 3 is odd with
(3 - 1) / 2 = 1 < 3, so the claimed formula demands B-page 1 there, but
the merge emits B-page 2: the per-index formula fails once one input is
exhausted. -/
theorem merge_claim_index_formula_false :
    mergeAlternating [1] [10, 11, 12] = ([1, 10, 11, 12] : List Nat) ∧
    3 % 2 ≠ 0 ∧ (3 - 1) / 2 < ([10, 11, 12] : List Nat).length ∧
    (mergeAlternating [1] [10, 11, 12]).get? 3
      ≠ ([10, 11, 12] : List Nat).get? ((3 - 1) / 2) := by
  decide

/-- Embeds the try/except wrapper of merge_pdfs_alternating
(src/PDF_Merger.py, lines 41-70): parsing either input raises before any
page is written, and the handler returns the error with no output buffer. -/
def merge_pdfs_alternating (r1 r2 : Except String (List α)) :
    Except String (List α) :=
  match r1 with
  | .error e => .error e
  | .ok A =>
      match r2 with
      | .error e => .error e
      | .ok B => .ok (mergeAlternating A B)

/-- Claim C8.  When either input fails to parse, the alternating merge
returns an error and never an output document: the failure is atomic with
no partial merged result. -/
theorem merge_fails_atomically (r1 r2 : Except String (List α))
    (h : (∃ e, r1 = .error e) ∨ (∃ e, r2 = .error e)) :
    ∃ e, merge_pdfs_alternating r1 r2 = .error e ∧
      ∀ doc : List α, merge_pdfs_alternating r1 r2 ≠ .ok doc := by
  match r1 with
  | .error e => exact ⟨e, rfl, fun doc h2 => by simp [merge_pdfs_alternating] at h2⟩
  | .ok A =>
      match r2 with
      | .error e =>
          exact ⟨e, rfl, fun doc h2 => by simp [merge_pdfs_alternating] at h2⟩
      | .ok B =>
          rcases h with ⟨e, he⟩ | ⟨e, he⟩ <;> exact absurd he (by simp)

/-- Witness for merge_fails_atomically at a concrete failing first input. -/
theorem merge_fails_atomically_witness :
    ∃ e, merge_pdfs_alternating (Except.error "bad") (Except.ok ([0] : List Nat))
        = .error e ∧
      ∀ doc : List Nat,
        merge_pdfs_alternating (Except.error "bad") (Except.ok [0]) ≠ .ok doc :=
  merge_fails_atomically _ _ (Or.inl ⟨"bad", rfl⟩)

end Merger

/-! ## Positional page splitting (src/PDF_Splitter.py and src/Pdf_splitter.py) -/

/-- A page of the mediabox geometry the splitters read: width and height in
points, exact rational arithmetic. -/
structure Page where
  width : ℚ
  height : ℚ
deriving DecidableEq

/-- Adjacent boundary pairs: for all_splits = [b0, b1, ..., bn] the splitter
loop visits (b0, b1), (b1, b2), ..., (b(n-1), bn). -/
def segPairs {α : Type} (l : List α) : List (α × α) := l.zip l.tail

theorem segPairs_cons_cons {α : Type} (a b : α) (l : List α) :
    segPairs (a :: b :: l) = (a, b) :: segPairs (b :: l) := rfl

theorem length_segPairs {α : Type} (l : List α) :
    (segPairs l).length = l.length - 1 := by
  cases l with
  | nil => rfl
  | cons a t =>
      simp only [segPairs, List.tail_cons, List.length_zip, List.length_cons]
      omega

theorem chain'_segPairs {α : Type} (l : List α) :
    List.Chain' (fun p q : α × α => p.2 = q.1) (segPairs l) := by
  induction l with
  | nil => simp [segPairs]
  | cons a t ih =>
      cases t with
      | nil => simp [segPairs]
      | cons b t2 =>
          rw [segPairs_cons_cons]
          refine List.Chain'.cons' ih ?_
          intro q hq
          cases t2 with
          | nil => simp [segPairs] at hq
          | cons c t3 =>
              rw [segPairs_cons_cons] at hq
              simp only [List.head?_cons, Option.mem_def, Option.some.injEq] at hq
              rw [← hq]

theorem rel_of_mem_segPairs {α : Type} {R : α → α → Prop} {l : List α}
    (h : List.Chain' R l) : ∀ p ∈ segPairs l, R p.1 p.2 := by
  induction l with
  | nil => simp [segPairs]
  | cons a t ih =>
      cases t with
      | nil => simp [segPairs]
      | cons b t2 =>
          rw [segPairs_cons_cons]
          intro p hp
          rcases List.mem_cons.mp hp with rfl | hp2
          · exact (List.chain'_cons.mp h).1
          · exact ih (List.chain'_cons.mp h).2 p hp2

theorem mem_segPairs_append {α : Type} (l1 l2 : List α) (a b : α) :
    (a, b) ∈ segPairs (l1 ++ a :: b :: l2) := by
  induction l1 with
  | nil => rw [List.nil_append, segPairs_cons_cons]; exact List.mem_cons_self _ _
  | cons x t ih =>
      rw [List.cons_append]
      cases hm : t ++ a :: b :: l2 with
      | nil => simp at hm
      | cons y m2 =>
          rw [segPairs_cons_cons]
          rw [hm] at ih
          exact List.mem_cons_of_mem _ ih

theorem sum_segPairs_sub (l : List ℚ) (x : ℚ) :
    ((segPairs (x :: l)).map (fun p => p.2 - p.1)).sum = l.getLastD x - x := by
  induction l generalizing x with
  | nil => simp [segPairs]
  | cons y t ih =>
      rw [segPairs_cons_cons, List.map_cons, List.sum_cons, ih y,
        List.getLastD_cons]
      ring

theorem chain'_le_boundaries (s : List ℚ) (e : ℚ)
    (hs : List.Sorted (· ≤ ·) s) (h0 : ∀ x ∈ s, 0 ≤ x) (he : ∀ x ∈ s, x ≤ e)
    (h0e : 0 ≤ e) : List.Chain' (· ≤ ·) (0 :: (s ++ [e])) := by
  rw [List.chain'_iff_pairwise, List.pairwise_cons, List.pairwise_append]
  refine ⟨?_, hs, by simp, ?_⟩
  · intro y hy
    rcases List.mem_append.mp hy with hys | hye
    · exact h0 y hys
    · simp only [List.mem_singleton] at hye
      exact hye ▸ h0e
  · intro x hx y hy
    simp only [List.mem_singleton] at hy
    exact hy ▸ he x hx

theorem count_filter_kept (p : ℚ → Bool) (a : ℚ) (l : List ℚ)
    (h : p a = true) : (l.filter p).count a = l.count a :=
  List.count_filter h

theorem sorted_dup_adjacent (l : List ℚ) (d : ℚ)
    (hs : List.Sorted (· ≤ ·) l) (hc : 2 ≤ l.count d) :
    ∃ l1 l2, l = l1 ++ d :: d :: l2 := by
  induction l with
  | nil => simp at hc
  | cons a t ih =>
      rw [List.sorted_cons] at hs
      by_cases had : a = d
      · subst had
        have hdt : a ∈ t := by
          by_contra hnot
          have : t.count a = 0 := List.count_eq_zero.mpr hnot
          rw [List.count_cons_self, this] at hc
          omega
        cases t with
        | nil => simp at hdt
        | cons b t2 =>
            have hab : a ≤ b := hs.1 b (List.mem_cons_self _ _)
            have hba : b ≤ a := by
              rcases List.mem_cons.mp hdt with rfl | hd2
              · exact le_refl _
              · exact (List.sorted_cons.mp hs.2).1 a hd2
            have hb : b = a := le_antisymm hba hab
            exact ⟨[], t2, by simp [hb]⟩
      · have hct : 2 ≤ t.count d := by
          rwa [List.count_cons_of_ne (fun h => had h.symm)] at hc
        obtain ⟨l1, l2, hl⟩ := ih hs.2 hct
        exact ⟨a :: l1, l2, by rw [hl, List.cons_append]⟩

namespace PDFSplitterAbs

/-- The adjacent boundary pairs create_split_pdf (src/PDF_Splitter.py,
lines 19-42) enumerates for one page: all_splits is 0, the sorted splits,
then the page width, and each adjacent pair (left, right) yields one
segment.  Splits are absolute x coordinates; the cut axis is the width. -/
def segsAbs (page : Page) (splits : List ℚ) : List (ℚ × ℚ) :=
  segPairs (0 :: (List.insertionSort (· ≤ ·) splits ++ [page.width]))

/-- Embeds create_split_pdf of src/PDF_Splitter.py for one page: when the
page has splits, each adjacent pair (left, right) of all_splits becomes a
blank page of width right - left and unchanged height carrying the
translated content; with no splits the original page is passed through. -/
def create_split_pdf (page : Page) (splits : List ℚ) : List Page :=
  match splits with
  | [] => [page]
  | _ :: _ => (segsAbs page splits).map (fun s => Page.mk (s.2 - s.1) page.height)

end PDFSplitterAbs

namespace PdfSplitterPct

/-- The filter of create_split_pdf (src/Pdf_splitter.py, line 20): keep the
splits strictly between 0 and 100 percent. -/
def validSplits (splits : List ℚ) : List ℚ :=
  splits.filter (fun s => decide (0 < s) && decide (s < 100))

/-- The adjacent boundary pairs create_split_pdf (src/Pdf_splitter.py,
lines 18-45) enumerates for one page: the valid splits are sorted, scaled
from percentages to y coordinates by s / 100 * height, and bracketed by 0
and the page height. -/
def segsPct (page : Page) (splits : List ℚ) : List (ℚ × ℚ) :=
  segPairs (0 :: ((List.insertionSort (· ≤ ·) (validSplits splits)).map
    (fun s => s / 100 * page.height) ++ [page.height]))

/-- Embeds create_split_pdf of src/Pdf_splitter.py for one page: each
adjacent pair (top, bottom) becomes a blank page of height bottom - top and
unchanged width; with no splits, or none strictly between 0 and 100, the
original page is passed through. -/
def create_split_pdf (page : Page) (splits : List ℚ) : List Page :=
  match splits with
  | [] => [page]
  | _ :: _ =>
      if (validSplits splits).isEmpty then [page]
      else (segsPct page splits).map (fun s => Page.mk page.width (s.2 - s.1))

end PdfSplitterPct

theorem length_create_abs (page : Page) (O : List ℚ) :
    (PDFSplitterAbs.create_split_pdf page O).length = O.length + 1 := by
  cases O with
  | nil => rfl
  | cons o t =>
      simp only [PDFSplitterAbs.create_split_pdf, PDFSplitterAbs.segsAbs,
        List.length_map, length_segPairs, List.length_cons, List.length_append,
        List.length_insertionSort, List.length_singleton, List.length_nil]
      omega

theorem widths_create_abs (page : Page) (O : List ℚ) :
    (PDFSplitterAbs.create_split_pdf page O).map Page.width
      = (PDFSplitterAbs.segsAbs page O).map (fun p => p.2 - p.1) := by
  cases O with
  | nil => simp [PDFSplitterAbs.create_split_pdf, PDFSplitterAbs.segsAbs, segPairs]
  | cons o t =>
      simp only [PDFSplitterAbs.create_split_pdf, List.map_map]
      rfl

theorem heights_create_abs (page : Page) (O : List ℚ) :
    ∀ q ∈ PDFSplitterAbs.create_split_pdf page O, q.height = page.height := by
  intro q hq
  cases O with
  | nil =>
      simp only [PDFSplitterAbs.create_split_pdf, List.mem_singleton] at hq
      rw [hq]
  | cons o t =>
      simp only [PDFSplitterAbs.create_split_pdf, List.mem_map] at hq
      obtain ⟨s, _, rfl⟩ := hq
      rfl

theorem sum_segsAbs (page : Page) (O : List ℚ) :
    ((PDFSplitterAbs.segsAbs page O).map (fun p => p.2 - p.1)).sum
      = page.width := by
  show ((segPairs (0 :: _)).map _).sum = _
  rw [sum_segPairs_sub, List.getLastD_concat]
  ring

theorem mono_segsAbs (page : Page) (O : List ℚ) (hw : 0 ≤ page.width)
    (hint : ∀ s ∈ O, 0 < s ∧ s < page.width) :
    ∀ p ∈ PDFSplitterAbs.segsAbs page O, p.1 ≤ p.2 := by
  have hperm := List.perm_insertionSort (· ≤ ·) O
  have hchain : List.Chain' (· ≤ ·)
      (0 :: (List.insertionSort (· ≤ ·) O ++ [page.width])) :=
    chain'_le_boundaries _ _ (List.sorted_insertionSort (· ≤ ·) O)
      (fun x hx => le_of_lt (hint x (hperm.mem_iff.mp hx)).1)
      (fun x hx => le_of_lt (hint x (hperm.mem_iff.mp hx)).2) hw
  exact rel_of_mem_segPairs hchain

theorem valid_eq_self (O : List ℚ) (hint : ∀ s ∈ O, 0 < s ∧ s < 100) :
    PdfSplitterPct.validSplits O = O := by
  apply List.filter_eq_self.mpr
  intro a ha
  simp [(hint a ha).1, (hint a ha).2]

theorem length_create_pct (page : Page) (O : List ℚ)
    (hint : ∀ s ∈ O, 0 < s ∧ s < 100) :
    (PdfSplitterPct.create_split_pdf page O).length = O.length + 1 := by
  cases O with
  | nil => rfl
  | cons o t =>
      have hval := valid_eq_self (o :: t) hint
      simp only [PdfSplitterPct.create_split_pdf, hval, List.isEmpty_cons,
        Bool.false_eq_true, if_false, PdfSplitterPct.segsPct,
        List.length_map, length_segPairs, List.length_cons, List.length_append,
        List.length_insertionSort, List.length_singleton, List.length_nil, hval]
      omega

theorem heights_create_pct (page : Page) (O : List ℚ) :
    (PdfSplitterPct.create_split_pdf page O).map Page.height
      = (PdfSplitterPct.segsPct page O).map (fun p => p.2 - p.1) := by
  cases O with
  | nil =>
      simp [PdfSplitterPct.create_split_pdf, PdfSplitterPct.segsPct,
        PdfSplitterPct.validSplits, segPairs]
  | cons o t =>
      simp only [PdfSplitterPct.create_split_pdf]
      by_cases hv : (PdfSplitterPct.validSplits (o :: t)).isEmpty
      · rw [if_pos hv]
        have hnil : PdfSplitterPct.validSplits (o :: t) = [] :=
          List.isEmpty_iff.mp hv
        simp [PdfSplitterPct.segsPct, hnil, segPairs]
      · rw [if_neg hv]
        simp only [List.map_map]
        rfl

theorem widths_create_pct (page : Page) (O : List ℚ) :
    ∀ q ∈ PdfSplitterPct.create_split_pdf page O, q.width = page.width := by
  intro q hq
  cases O with
  | nil =>
      simp only [PdfSplitterPct.create_split_pdf, List.mem_singleton] at hq
      rw [hq]
  | cons o t =>
      simp only [PdfSplitterPct.create_split_pdf] at hq
      by_cases hv : (PdfSplitterPct.validSplits (o :: t)).isEmpty
      · rw [if_pos hv] at hq
        simp only [List.mem_singleton] at hq
        rw [hq]
      · rw [if_neg hv] at hq
        simp only [List.mem_map] at hq
        obtain ⟨s, _, rfl⟩ := hq
        rfl

theorem sum_segsPct (page : Page) (O : List ℚ) :
    ((PdfSplitterPct.segsPct page O).map (fun p => p.2 - p.1)).sum
      = page.height := by
  show ((segPairs (0 :: _)).map _).sum = _
  rw [sum_segPairs_sub, List.getLastD_concat]
  ring

theorem mono_segsPct (page : Page) (O : List ℚ) (hh : 0 ≤ page.height) :
    ∀ p ∈ PdfSplitterPct.segsPct page O, p.1 ≤ p.2 := by
  have hperm := List.perm_insertionSort (· ≤ ·) (PdfSplitterPct.validSplits O)
  have hbound : ∀ s ∈ List.insertionSort (· ≤ ·) (PdfSplitterPct.validSplits O),
      0 < s ∧ s < 100 := by
    intro s hs
    have hmem := hperm.mem_iff.mp hs
    have := (List.mem_filter.mp hmem).2
    simp only [Bool.and_eq_true, decide_eq_true_eq] at this
    exact this
  have hsorted : List.Sorted (· ≤ ·)
      ((List.insertionSort (· ≤ ·) (PdfSplitterPct.validSplits O)).map
        (fun s => s / 100 * page.height)) := by
    refine List.Pairwise.map _ ?_ (List.sorted_insertionSort (· ≤ ·) _)
    intro a b hab
    have : a / 100 ≤ b / 100 := by linarith
    exact mul_le_mul_of_nonneg_right this hh
  have hchain : List.Chain' (· ≤ ·)
      (0 :: ((List.insertionSort (· ≤ ·) (PdfSplitterPct.validSplits O)).map
        (fun s => s / 100 * page.height) ++ [page.height])) := by
    apply chain'_le_boundaries _ _ hsorted
    · intro x hx
      obtain ⟨s, hs, rfl⟩ := List.mem_map.mp hx
      have hb := hbound s hs
      have h100 : (0:ℚ) ≤ s / 100 := by
        have := hb.1
        positivity
      exact mul_nonneg h100 hh
    · intro x hx
      obtain ⟨s, hs, rfl⟩ := List.mem_map.mp hx
      have hb := hbound s hs
      calc s / 100 * page.height ≤ 1 * page.height := by
            refine mul_le_mul_of_nonneg_right ?_ hh
            rw [div_le_one (by norm_num)]
            exact le_of_lt hb.2
        _ = page.height := one_mul _
    · exact hh
  exact rel_of_mem_segPairs hchain

/-- Claim C2.  For a page and offsets all strictly between 0 and the
extent along the cut axis, both splitter variants emit exactly |O| + 1
segments; the adjacent boundary pairs are contiguous (each segment starts
where the previous one ends), non-overlapping (each has non-negative
extent), their extents sum exactly to the page extent, and the dimension
along the other axis is unchanged on every segment.  The first conjunct is
the absolute-offset width splitter of src/PDF_Splitter.py, the second the
percentage height splitter of src/Pdf_splitter.py. -/
theorem split_positional_segments (page : Page) (O : List ℚ) :
    ((0 < page.width → (∀ s ∈ O, 0 < s ∧ s < page.width) →
      (PDFSplitterAbs.create_split_pdf page O).length = O.length + 1 ∧
      (PDFSplitterAbs.create_split_pdf page O).map Page.width
        = (PDFSplitterAbs.segsAbs page O).map (fun p => p.2 - p.1) ∧
      List.Chain' (fun p q : ℚ × ℚ => p.2 = q.1)
        (PDFSplitterAbs.segsAbs page O) ∧
      (∀ p ∈ PDFSplitterAbs.segsAbs page O, p.1 ≤ p.2) ∧
      ((PDFSplitterAbs.segsAbs page O).map (fun p => p.2 - p.1)).sum
        = page.width ∧
      ∀ q ∈ PDFSplitterAbs.create_split_pdf page O, q.height = page.height) ∧
     (0 < page.height → (∀ s ∈ O, 0 < s ∧ s < 100) →
      (PdfSplitterPct.create_split_pdf page O).length = O.length + 1 ∧
      (PdfSplitterPct.create_split_pdf page O).map Page.height
        = (PdfSplitterPct.segsPct page O).map (fun p => p.2 - p.1) ∧
      List.Chain' (fun p q : ℚ × ℚ => p.2 = q.1)
        (PdfSplitterPct.segsPct page O) ∧
      (∀ p ∈ PdfSplitterPct.segsPct page O, p.1 ≤ p.2) ∧
      ((PdfSplitterPct.segsPct page O).map (fun p => p.2 - p.1)).sum
        = page.height ∧
      ∀ q ∈ PdfSplitterPct.create_split_pdf page O, q.width = page.width)) := by
  constructor
  · intro hw hint
    exact ⟨length_create_abs page O, widths_create_abs page O,
      chain'_segPairs _, mono_segsAbs page O (le_of_lt hw) hint,
      sum_segsAbs page O, heights_create_abs page O⟩
  · intro hh hint
    exact ⟨length_create_pct page O hint, heights_create_pct page O,
      chain'_segPairs _, mono_segsPct page O (le_of_lt hh),
      sum_segsPct page O, widths_create_pct page O⟩

/-- Witness for split_positional_segments: the 100 x 200 point page split
at absolute width offsets [30, 60], and at percentage height offsets
[30, 60], yields three segments in both variants; the absolute segment
widths sum to the page width. -/
theorem split_positional_segments_witness :
    (PDFSplitterAbs.create_split_pdf ⟨100, 200⟩ [30, 60]).length = 2 + 1 ∧
    ((PDFSplitterAbs.segsAbs ⟨100, 200⟩ [30, 60]).map
      (fun p => p.2 - p.1)).sum = (100 : ℚ) ∧
    (PdfSplitterPct.create_split_pdf ⟨100, 200⟩ [30, 60]).length = 2 + 1 := by
  have h := split_positional_segments ⟨100, 200⟩ [30, 60]
  have hintw : ∀ s ∈ ([30, 60] : List ℚ), 0 < s ∧ s < (Page.mk 100 200).width := by
    intro s hs
    rcases List.mem_cons.mp hs with rfl | hs2
    · constructor <;> norm_num
    · rcases List.mem_singleton.mp hs2 with rfl
      constructor <;> norm_num
  have hintp : ∀ s ∈ ([30, 60] : List ℚ), 0 < s ∧ s < 100 := by
    intro s hs
    rcases List.mem_cons.mp hs with rfl | hs2
    · constructor <;> norm_num
    · rcases List.mem_singleton.mp hs2 with rfl
      constructor <;> norm_num
  have h1 := h.1 (by norm_num) hintw
  have h2 := h.2 (by norm_num) hintp
  exact ⟨h1.1, h1.2.2.2.2.1, h2.1⟩

/-- Claim C5 (amended).  Neither splitter filters out degenerate adjacent
boundary pairs: the output always has |O| + 1 segments, and an offset that
occurs at least twice produces a zero-extent segment in the output
(width 0 in the absolute-width variant, height 0 in the percentage-height
variant) instead of being collapsed to a single cut. -/
theorem split_duplicate_offsets (page : Page) (O : List ℚ) (d : ℚ) :
    (2 ≤ O.count d → Page.mk 0 page.height
        ∈ PDFSplitterAbs.create_split_pdf page O) ∧
    (2 ≤ O.count d → 0 < d → d < 100 →
      Page.mk page.width 0 ∈ PdfSplitterPct.create_split_pdf page O) ∧
    (PDFSplitterAbs.create_split_pdf page O).length = O.length + 1 ∧
    ((∀ s ∈ O, 0 < s ∧ s < 100) →
      (PdfSplitterPct.create_split_pdf page O).length = O.length + 1) := by
  refine ⟨?_, ?_, length_create_abs page O, fun hint => length_create_pct page O hint⟩
  · intro hc
    have hperm := List.perm_insertionSort (· ≤ ·) O
    have hcS : 2 ≤ (List.insertionSort (· ≤ ·) O).count d := by
      rw [hperm.count_eq]
      exact hc
    obtain ⟨l1, l2, hdecomp⟩ :=
      sorted_dup_adjacent _ d (List.sorted_insertionSort (· ≤ ·) O) hcS
    cases O with
    | nil => simp at hc
    | cons o t =>
        show Page.mk 0 page.height ∈ (PDFSplitterAbs.segsAbs page (o :: t)).map _
        refine List.mem_map.mpr ⟨(d, d), ?_, by simp⟩
        show (d, d) ∈ segPairs (0 :: (List.insertionSort (· ≤ ·) (o :: t) ++ [page.width]))
        rw [hdecomp]
        have hsplit : 0 :: ((l1 ++ d :: d :: l2) ++ [page.width])
            = (0 :: l1) ++ d :: d :: (l2 ++ [page.width]) := by
          simp [List.cons_append, List.append_assoc]
        rw [hsplit]
        exact mem_segPairs_append _ _ _ _
  · intro hc hd1 hd2
    have hpd : (fun s => decide ((0:ℚ) < s) && decide (s < 100)) d = true := by
      simp [hd1, hd2]
    have hcv : 2 ≤ (PdfSplitterPct.validSplits O).count d := by
      rw [PdfSplitterPct.validSplits,
        count_filter_kept (fun s => decide ((0:ℚ) < s) && decide (s < 100)) d O hpd]
      exact hc
    have hperm := List.perm_insertionSort (· ≤ ·) (PdfSplitterPct.validSplits O)
    have hcS : 2 ≤ (List.insertionSort (· ≤ ·)
        (PdfSplitterPct.validSplits O)).count d := by
      rw [hperm.count_eq]
      exact hcv
    obtain ⟨l1, l2, hdecomp⟩ :=
      sorted_dup_adjacent _ d (List.sorted_insertionSort (· ≤ ·) _) hcS
    have hvne : ¬ (PdfSplitterPct.validSplits O).isEmpty := by
      intro hemp
      rw [List.isEmpty_iff.mp hemp] at hcv
      simp at hcv
    cases O with
    | nil => simp at hc
    | cons o t =>
        show Page.mk page.width 0 ∈ PdfSplitterPct.create_split_pdf page (o :: t)
        rw [PdfSplitterPct.create_split_pdf]
        rw [if_neg hvne]
        refine List.mem_map.mpr ⟨(d / 100 * page.height, d / 100 * page.height),
          ?_, by simp⟩
        show _ ∈ segPairs (0 :: ((List.insertionSort (· ≤ ·)
          (PdfSplitterPct.validSplits (o :: t))).map
            (fun s => s / 100 * page.height) ++ [page.height]))
        rw [hdecomp, List.map_append, List.map_cons, List.map_cons]
        have hsplit : 0 :: ((l1.map (fun s => s / 100 * page.height)
              ++ d / 100 * page.height :: d / 100 * page.height
                :: l2.map (fun s => s / 100 * page.height)) ++ [page.height])
            = (0 :: l1.map (fun s => s / 100 * page.height))
              ++ d / 100 * page.height :: d / 100 * page.height
                :: (l2.map (fun s => s / 100 * page.height) ++ [page.height]) := by
          simp [List.cons_append, List.append_assoc]
        rw [hsplit]
        exact mem_segPairs_append _ _ _ _

/-- Witness for split_duplicate_offsets: offset 50 occurring twice on a
50 x 100 point page yields a zero-extent segment in both variants. -/
theorem split_duplicate_offsets_witness :
    Page.mk 0 (100 : ℚ) ∈ PDFSplitterAbs.create_split_pdf ⟨50, 100⟩ [50, 50] ∧
    Page.mk (50 : ℚ) 0 ∈ PdfSplitterPct.create_split_pdf ⟨50, 100⟩ [50, 50] := by
  have h := split_duplicate_offsets ⟨50, 100⟩ [50, 50] 50
  have hc : 2 ≤ List.count (50:ℚ) [50, 50] := by
    simp [List.count_cons]
  exact ⟨h.1 hc, h.2.1 hc (by norm_num) (by norm_num)⟩

/-- Claim C5 counterexample.  The percentage splitter applied to a
50 x 100 page with the duplicate offset list [50, 50] emits the segment
pages of heights 50, 0, 50: the zero-extent middle segment is not filtered
out, so a degenerate pair (lo, hi) with hi = lo is emitted. -/
theorem split_duplicate_claim_false :
    PdfSplitterPct.create_split_pdf ⟨50, 100⟩ [50, 50]
      = [Page.mk 50 50, Page.mk 50 0, Page.mk 50 50] ∧
    Page.mk (50 : ℚ) 0 ∈ PdfSplitterPct.create_split_pdf ⟨50, 100⟩ [50, 50] := by
  constructor
  · norm_num [PdfSplitterPct.create_split_pdf, PdfSplitterPct.validSplits,
      PdfSplitterPct.segsPct, segPairs, List.insertionSort, List.orderedInsert,
      List.filter]
  · norm_num [PdfSplitterPct.create_split_pdf, PdfSplitterPct.validSplits,
      PdfSplitterPct.segsPct, segPairs, List.insertionSort, List.orderedInsert,
      List.filter]

/-! ## Images, logo masking and autocrop
(src/pdf_processor_app.py and src/Pdf_cropper.py) -/

/-- An RGB pixel: channel values 0..255 as read from a rasterized page. -/
abbrev Pixel := Nat × Nat × Nat

/-- Flat white, the fill PIL receives as (255, 255, 255). -/
def whitePx : Pixel := (255, 255, 255)

/-- An image as the numpy array of a PIL RGB image: a list of pixel rows. -/
abbrev Img := List (List Pixel)

/-- Image width as PIL reports it; rows of a rasterized page all share it. -/
def Img.width (img : Img) : Nat := (img.headD []).length

/-- PIL Image.crop with box (x1, y1, x2, y2): the region of columns
x1..x2-1 of rows y1..y2-1.  All crop boxes built below are clamped to the
image bounds before the call, so no out-of-range padding arises. -/
def cropBox (img : Img) (x1 y1 x2 y2 : Nat) : Img :=
  ((img.drop y1).take (y2 - y1)).map (fun r => (r.drop x1).take (x2 - x1))

/-- A pixel counts as non-white when some channel is below the threshold,
i.e. the negation of np.all(img_array >= white_threshold, axis=2). -/
def nonWhite (thr : Nat) (p : Pixel) : Bool :=
  decide (p.1 < thr) || decide (p.2.1 < thr) || decide (p.2.2 < thr)

namespace PdfProcessor

/-- Row i holds non-white content: np.any(img_array < thr, axis=(1, 2)) of
crop_vertical_only (src/pdf_processor_app.py, line 399) at row i. -/
def rowNonWhite (thr : Nat) (r : List Pixel) : Bool := r.any (nonWhite thr)

/-- The indices np.where returns for the row mask, in increasing order. -/
def nonWhiteRowIdxs (img : Img) (thr : Nat) : List Nat :=
  (List.range img.length).filter (fun i => rowNonWhite thr (img.getD i []))

/-- Column j holds a non-white pixel: one coordinate axis of
np.where(~white_mask) in crop_both_fixed (src/pdf_processor_app.py,
line 451). -/
def colNonWhite (img : Img) (thr : Nat) (j : Nat) : Bool :=
  img.any (fun r => ((r.get? j).map (nonWhite thr)).getD false)

/-- The sorted column indices of non-white pixels. -/
def nonWhiteColIdxs (img : Img) (thr : Nat) : List Nat :=
  (List.range (Img.width img)).filter (colNonWhite img thr)

/-- Channel c of a pixel, for the axis-(0, 1) reduction below. -/
def channelVal (c : Nat) (p : Pixel) : Nat :=
  if c = 0 then p.1 else if c = 1 then p.2.1 else p.2.2

/-- Channel c has a value below the threshold somewhere in the image.
crop_horizontal_only (src/pdf_processor_app.py, line 421) computes
np.any(img_array < thr, axis=(0, 1)) on the H x W x 3 array: reducing
axes 0 and 1 leaves the channel axis, so the mask it takes for a per-column
mask in fact has one entry per color channel. -/
def channelNonWhite (img : Img) (thr : Nat) (c : Nat) : Bool :=
  img.any (fun r => r.any (fun p => decide (channelVal c p < thr)))

/-- The indices np.where returns for the per-channel mask of
crop_horizontal_only: a subset of {0, 1, 2}. -/
def nonWhiteChannelIdxs (img : Img) (thr : Nat) : List Nat :=
  (List.range 3).filter (channelNonWhite img thr)

/-- Embeds crop_vertical_only (src/pdf_processor_app.py, lines 394-414):
bounding rows of the non-white row mask, a 5 pixel margin clamped to the
image, full width kept; the image is returned unchanged when the mask is
empty. -/
def crop_vertical_only (img : Img) (thr : Nat) : Img :=
  match (nonWhiteRowIdxs img thr).head?, (nonWhiteRowIdxs img thr).getLast? with
  | some ymin, some ymax =>
      cropBox img 0 (ymin - 5) (Img.width img) (min img.length (ymax + 1 + 5))
  | _, _ => img

/-- Embeds crop_horizontal_only (src/pdf_processor_app.py, lines 416-436)
for RGB input: the first and last indices of the per-channel mask (the
axis-(0, 1) reduction) are used as if they were column bounds, a 5 pixel
margin is applied and clamped to the image width, full height kept. -/
def crop_horizontal_only (img : Img) (thr : Nat) : Img :=
  match (nonWhiteChannelIdxs img thr).head?,
      (nonWhiteChannelIdxs img thr).getLast? with
  | some xmin, some xmax =>
      cropBox img (xmin - 5) 0 (min (Img.width img) (xmax + 1 + 5)) img.length
  | _, _ => img

/-- The bounding box of non-white content that crop_both_fixed derives
before margin expansion: (x_min, y_min, x_max + 1, y_max + 1) from the
minima and maxima of the np.where coordinate arrays, or none for an
all-white image. -/
def contentBBox (img : Img) (thr : Nat) : Option (Nat × Nat × Nat × Nat) :=
  match (nonWhiteColIdxs img thr).head?, (nonWhiteRowIdxs img thr).head?,
      (nonWhiteColIdxs img thr).getLast?, (nonWhiteRowIdxs img thr).getLast? with
  | some xmin, some ymin, some xmax, some ymax =>
      some (xmin, ymin, xmax + 1, ymax + 1)
  | _, _, _, _ => none

/-- Embeds crop_both_fixed (src/pdf_processor_app.py, lines 438-469): the
joint bounding box of all non-white pixels, expanded by the fixed 5 pixel
margin and clamped to the image bounds; an all-white image is returned
unchanged. -/
def crop_both_fixed (img : Img) (thr : Nat) : Img :=
  match contentBBox img thr with
  | some (x1, y1, x2, y2) =>
      cropBox img (x1 - 5) (y1 - 5) (min (Img.width img) (x2 + 5))
        (min img.length (y2 + 5))
  | none => img

/-- PIL ImageDraw.rectangle([x1, y1, x2, y2], fill): overwrites the pixels
with x1 <= j <= x2 and y1 <= i <= y2 (the rectangle outline includes both
corners), clipped to the image. -/
def fillRectIncl (img : Img) (x1 y1 x2 y2 : Nat) (c : Pixel) : Img :=
  img.mapIdx (fun i r =>
    if y1 ≤ i ∧ i ≤ y2 then
      r.mapIdx (fun j p => if x1 ≤ j ∧ j ≤ x2 then c else p)
    else r)

/-- The pixels of the numpy slice img_array[r1:r2, c1:c2], row-major. -/
def subRegion (img : Img) (r1 r2 c1 c2 : Nat) : List Pixel :=
  (cropBox img c1 r1 c2 r2).flatten

/-- np.mean(sample, axis=(0, 1)) of a strip: the per-channel mean as exact
rationals (an empty list yields 0/0 = 0, but every caller below first
checks the strip is non-empty, matching the sample.size > 0 guards). -/
def meanColor (ps : List Pixel) : ℚ × ℚ × ℚ :=
  ((ps.map (fun p => (p.1 : ℚ))).sum / ps.length,
   (ps.map (fun p => (p.2.1 : ℚ))).sum / ps.length,
   (ps.map (fun p => (p.2.2 : ℚ))).sum / ps.length)

/-- The sample list remove_logo_precise (src/pdf_processor_app.py,
lines 356-383) builds for the smart method: the mean colors of the 10
pixel strips outside the top, bottom, left and right edges of the region.
The top strip is taken only when y1 > 10, the bottom only when
y2 < height - 10, the left only when x1 > 10, the right only when
x2 < width - 10, and each only when the sliced strip is non-empty.
Subtraction is truncated: for height < 10 the Python comparison
y2 < height - 10 is against a negative number and also fails. -/
def smartSamples (img : Img) (x1 y1 x2 y2 : Nat) : List (ℚ × ℚ × ℚ) :=
  (if 10 < y1 then
    (let s := subRegion img (y1 - 10) y1 x1 x2
     if 0 < s.length then [meanColor s] else [])
   else []) ++
  (if y2 < img.length - 10 then
    (let s := subRegion img y2 (min img.length (y2 + 10)) x1 x2
     if 0 < s.length then [meanColor s] else [])
   else []) ++
  (if 10 < x1 then
    (let s := subRegion img y1 y2 (x1 - 10) x1
     if 0 < s.length then [meanColor s] else [])
   else []) ++
  (if x2 < Img.width img - 10 then
    (let s := subRegion img y1 y2 x2 (min (Img.width img) (x2 + 10))
     if 0 < s.length then [meanColor s] else [])
   else [])

/-- np.mean(samples, axis=0).astype(int) on non-negative values: the floor
of the per-channel average. -/
def floorAvgNat (q : ℚ) : Nat := q.floor.toNat

/-- The fill color the smart method computes: the per-channel average of
the gathered strip means, truncated to integers, or flat white when no
strip qualified. -/
def smartFillColor (img : Img) (x1 y1 x2 y2 : Nat) : Pixel :=
  let S := smartSamples img x1 y1 x2 y2
  if 0 < S.length then
    (floorAvgNat ((S.map (fun m => m.1)).sum / S.length),
     floorAvgNat ((S.map (fun m => m.2.1)).sum / S.length),
     floorAvgNat ((S.map (fun m => m.2.2)).sum / S.length))
  else whitePx

/-- Embeds remove_logo_precise (src/pdf_processor_app.py, lines 340-392):
the white method fills the rectangle with flat white, the smart method
with the sampled background color. -/
def remove_logo_precise (img : Img) (coords : Nat × Nat × Nat × Nat)
    (method : String) : Img :=
  let (x1, y1, x2, y2) := coords
  if method = "white" then fillRectIncl img x1 y1 x2 y2 whitePx
  else fillRectIncl img x1 y1 x2 y2 (smartFillColor img x1 y1 x2 y2)

/-- Embeds the coordinate repair of show_all_logos_setup
(src/pdf_processor_app.py, lines 214-220, identical in src/Pdf_p.py,
lines 280-288): a box entered with x2 <= x1 or y2 <= y1 is silently
replaced by one extending 10 units from the top-left corner along the
degenerate axis, and the repaired tuple is what is stored as the logo
coordinates. -/
def repairLogoCoords (x1 y1 x2 y2 : Nat) : Nat × Nat × Nat × Nat :=
  let x2f := if x2 ≤ x1 then x1 + 10 else x2
  let y2f := if y2 ≤ y1 then y1 + 10 else y2
  (x1, y1, x2f, y2f)

end PdfProcessor

namespace PdfCropper

/-- PIL Image.convert to mode L (ITU-R 601-2): the luma
(19595 R + 38470 G + 7471 B) / 65536 with truncating division; the three
coefficients sum to exactly 65536. -/
def toGray (p : Pixel) : Nat :=
  (19595 * p.1 + 38470 * p.2.1 + 7471 * p.2.2) / 65536

/-- The grayscale array np.array(image.convert(L)). -/
def grayImg (img : Img) : List (List Nat) := img.map (List.map toGray)

/-- np.mean of a list of grayscale values, exact. -/
def meanQ (l : List Nat) : ℚ := (l.map (fun v : Nat => (v : ℚ))).sum / l.length

/-- The comparison np.mean(...) < threshold for one row or column of
grayscale values.  numpy yields nan for an empty slice and nan < thr is
false, so the empty case is excluded explicitly. -/
def meanBelow (thr : Nat) (l : List Nat) : Bool :=
  !l.isEmpty && decide (meanQ l < (thr : ℚ))

/-- The row indices crop_vertical_only (src/Pdf_cropper.py, line 156)
keeps: rows whose grayscale mean is below the threshold. -/
def rowIdxsBelow (img : Img) (thr : Nat) : List Nat :=
  (List.range img.length).filter
    (fun i => meanBelow thr ((grayImg img).getD i []))

/-- Embeds crop_vertical_only (src/Pdf_cropper.py, lines 150-165): crop to
rows top..bottom of the below-threshold row-mean mask, no margin, full
width; unchanged when no row qualifies. -/
def crop_vertical_only (img : Img) (thr : Nat) : Img :=
  match (rowIdxsBelow img thr).head?, (rowIdxsBelow img thr).getLast? with
  | some top, some bottom => cropBox img 0 top (Img.width img) (bottom + 1)
  | _, _ => img

/-- Column j of the grayscale array, as numpy reads it for axis-0 means. -/
def colVals (g : List (List Nat)) (j : Nat) : List Nat :=
  g.filterMap (fun r => r.get? j)

/-- The column indices crop_horizontal_only (src/Pdf_cropper.py, line 173)
keeps: columns whose grayscale mean is below the threshold. -/
def colIdxsBelow (img : Img) (thr : Nat) : List Nat :=
  (List.range (Img.width img)).filter
    (fun j => meanBelow thr (colVals (grayImg img) j))

/-- Embeds crop_horizontal_only (src/Pdf_cropper.py, lines 167-182): crop
to columns left..right of the below-threshold column-mean mask, no margin,
full height; unchanged when no column qualifies. -/
def crop_horizontal_only (img : Img) (thr : Nat) : Img :=
  match (colIdxsBelow img thr).head?, (colIdxsBelow img thr).getLast? with
  | some left, some right => cropBox img left 0 (right + 1) img.length
  | _, _ => img

/-- Embeds crop_both_fixed (src/Pdf_cropper.py, lines 184-194): first the
vertical crop, then the horizontal crop of its result. -/
def crop_both_fixed (img : Img) (thr : Nat) : Img :=
  crop_horizontal_only (crop_vertical_only img thr) thr

/-- The numpy slice assignment img_array[y1:y2, x1:x2] = 255: overwrite
the pixels with y1 <= i < y2 and x1 <= j < x2 (end-exclusive, clamped by
slicing) with 255 on every channel. -/
def fillRectExcl (img : Img) (x1 y1 x2 y2 : Nat) (c : Pixel) : Img :=
  img.mapIdx (fun i r =>
    if y1 ≤ i ∧ i < y2 then
      r.mapIdx (fun j p => if x1 ≤ j ∧ j < x2 then c else p)
    else r)

/-- Embeds remove_logo_precise (src/Pdf_cropper.py, lines 129-148) for the
rectangle logo type: the white branch assigns 255 over the slice, and the
smart branch is a placeholder that performs the same 255 assignment. -/
def remove_logo_precise (img : Img) (coords : Nat × Nat × Nat × Nat)
    (method : String) : Img :=
  let (x1, y1, x2, y2) := coords
  if method = "white" then fillRectExcl img x1 y1 x2 y2 whitePx
  else fillRectExcl img x1 y1 x2 y2 whitePx

end PdfCropper

theorem filter_range_eq_singleton (n y : Nat) (p : Nat → Bool)
    (hy : y < n) (hp : ∀ i, i < n → (p i = true ↔ i = y)) :
    (List.range n).filter p = [y] := by
  induction n with
  | zero => omega
  | succ m ih =>
      rw [List.range_succ, List.filter_append]
      by_cases hym : y = m
      · subst hym
        have h1 : (List.range y).filter p = [] := by
          apply List.filter_eq_nil_iff.mpr
          intro a ha hpa
          rw [List.mem_range] at ha
          have := (hp a (by omega)).mp hpa
          omega
        have h2 : p y = true := (hp y (by omega)).mpr rfl
        rw [h1]
        simp [List.filter, h2]
      · have hym2 : y < m := by omega
        have hpm : p m = false := by
          cases hq : p m with
          | false => rfl
          | true => exact absurd ((hp m (by omega)).mp hq) (by omega)
        rw [ih hym2 (fun i hi => hp i (by omega))]
        simp [List.filter, hpm]

/-- Claim C4 evaluation at the failing input.  A 1 x 10 all-white row with
the single non-white pixel (200, 250, 250) at x = 9, threshold 245: the
joint-bounding-box crop of crop_both_fixed keeps columns 4..9 around the
content, while crop_vertical_only followed by crop_horizontal_only keeps
columns 0..5, because the horizontal mask np.any(arr < thr, axis=(0, 1))
of an H x W x 3 array has one entry per color channel, so its bounds index
channels (here channel 0), not columns.  The two pipelines disagree. -/
theorem crop_both_vs_sequential_divergence :
    PdfProcessor.crop_both_fixed [List.replicate 9 whitePx ++ [(200, 250, 250)]] 245
      = [List.replicate 5 whitePx ++ [(200, 250, 250)]] ∧
    PdfProcessor.crop_horizontal_only
        (PdfProcessor.crop_vertical_only
          [List.replicate 9 whitePx ++ [(200, 250, 250)]] 245) 245
      = [List.replicate 6 whitePx] ∧
    PdfProcessor.crop_both_fixed [List.replicate 9 whitePx ++ [(200, 250, 250)]] 245
      ≠ PdfProcessor.crop_horizontal_only
          (PdfProcessor.crop_vertical_only
            [List.replicate 9 whitePx ++ [(200, 250, 250)]] 245) 245 := by
  decide

/-- Claim C3.  For a rectangular image whose only non-white pixel sits at
column x of row y, the content bounding box crop_both_fixed computes
before the 5 pixel margin expansion is exactly (x, y, x + 1, y + 1). -/
theorem contentBBox_single_pixel (img : Img) (thr x y : Nat)
    (hrect : ∀ r ∈ img, r.length = Img.width img)
    (hy : y < img.length) (hx : x < Img.width img)
    (hpix : nonWhite thr ((img.getD y []).getD x whitePx) = true)
    (hwhite : ∀ i, i < img.length → ∀ j, j < (img.getD i []).length →
      ¬(i = y ∧ j = x) →
      nonWhite thr ((img.getD i []).getD j whitePx) = false) :
    PdfProcessor.contentBBox img thr = some (x, y, x + 1, y + 1) := by
  have hylen : x < (img.getD y []).length := by
    rw [hrect _ (by rw [List.getD_eq_getElem _ _ hy]; exact List.getElem_mem hy)]
    exact hx
  have hrows : PdfProcessor.nonWhiteRowIdxs img thr = [y] := by
    apply filter_range_eq_singleton _ _ _ hy
    intro i hi
    constructor
    · intro hany
      obtain ⟨q, hqmem, hqnw⟩ := List.any_eq_true.mp hany
      obtain ⟨n, hn⟩ := List.mem_iff_get?.mp hqmem
      have hnlen : n < (img.getD i []).length := by
        rw [List.get?_eq_getElem?] at hn
        by_contra hc
        rw [List.getElem?_eq_none (by omega)] at hn
        exact Option.noConfusion hn
      have hq : q = (img.getD i []).getD n whitePx := by
        rw [List.getD_eq_getElem _ _ hnlen]
        rw [List.get?_eq_getElem?, List.getElem?_eq_getElem hnlen] at hn
        exact (Option.some.injEq _ _ ▸ hn).symm
      by_contra hiy
      have := hwhite i hi n hnlen (fun hc => hiy hc.1)
      rw [← hq] at this
      rw [this] at hqnw
      exact Bool.noConfusion hqnw
    · intro hi2
      subst hi2
      apply List.any_eq_true.mpr
      refine ⟨(img.getD i []).getD x whitePx, ?_, hpix⟩
      rw [List.getD_eq_getElem _ _ hylen]
      exact List.getElem_mem hylen
  have hcols : PdfProcessor.nonWhiteColIdxs img thr = [x] := by
    apply filter_range_eq_singleton _ _ _ hx
    intro j hj
    constructor
    · intro hany
      obtain ⟨r, hrmem, hrj⟩ := List.any_eq_true.mp hany
      obtain ⟨n, hn⟩ := List.mem_iff_get?.mp hrmem
      have hnlen : n < img.length := by
        rw [List.get?_eq_getElem?] at hn
        by_contra hc
        rw [List.getElem?_eq_none (by omega)] at hn
        exact Option.noConfusion hn
      have hr : r = img.getD n [] := by
        rw [List.getD_eq_getElem _ _ hnlen]
        rw [List.get?_eq_getElem?, List.getElem?_eq_getElem hnlen] at hn
        exact (Option.some.injEq _ _ ▸ hn).symm
      subst hr
      cases hq : (img.getD n []).get? j with
      | none => rw [hq] at hrj; simp at hrj
      | some q =>
          rw [hq] at hrj
          simp only [Option.map_some', Option.getD_some] at hrj
          have hjlen : j < (img.getD n []).length := by
            rw [List.get?_eq_getElem?] at hq
            by_contra hc
            rw [List.getElem?_eq_none (by omega)] at hq
            exact Option.noConfusion hq
          have hq2 : q = (img.getD n []).getD j whitePx := by
            rw [List.getD_eq_getElem _ _ hjlen]
            rw [List.get?_eq_getElem?, List.getElem?_eq_getElem hjlen] at hq
            exact (Option.some.injEq _ _ ▸ hq).symm
          by_contra hjx
          have := hwhite n hnlen j hjlen (fun hc => hjx hc.2)
          rw [← hq2] at this
          rw [this] at hrj
          exact Bool.noConfusion hrj
    · intro hj2
      subst hj2
      apply List.any_eq_true.mpr
      refine ⟨img.getD y [], ?_, ?_⟩
      · rw [List.getD_eq_getElem _ _ hy]
        exact List.getElem_mem hy
      · rw [List.get?_eq_getElem?, List.getElem?_eq_getElem hylen]
        simp only [Option.map_some', Option.getD_some]
        rw [← List.getD_eq_getElem _ whitePx hylen]
        exact hpix
  rw [PdfProcessor.contentBBox, hrows, hcols]
  rfl

/-- Witness for contentBBox_single_pixel: a 2 x 3 white image with a black
pixel at column 1 of row 1 has pre-margin content box (1, 1, 2, 2). -/
theorem contentBBox_single_pixel_witness :
    PdfProcessor.contentBBox
        [[whitePx, whitePx, whitePx], [whitePx, (0, 0, 0), whitePx]] 245
      = some (1, 1, 2, 2) :=
  contentBBox_single_pixel
    [[whitePx, whitePx, whitePx], [whitePx, (0, 0, 0), whitePx]] 245 1 1
    (by decide) (by decide) (by decide) (by decide) (by decide)

theorem cast_sum_ge (thr : Nat) (l : List Nat) (h : ∀ v ∈ l, thr ≤ v) :
    (thr : ℚ) * l.length ≤ (l.map (fun v : Nat => (v : ℚ))).sum := by
  induction l with
  | nil => simp
  | cons a t ih =>
      simp only [List.map_cons, List.sum_cons, List.length_cons, Nat.cast_succ]
      have h1 : (thr : ℚ) ≤ a := by exact_mod_cast h a (List.mem_cons_self _ _)
      have h2 := ih (fun v hv => h v (List.mem_cons_of_mem _ hv))
      nlinarith [h1, h2]

theorem meanBelow_false_of_ge (thr : Nat) (l : List Nat)
    (h : ∀ v ∈ l, thr ≤ v) : PdfCropper.meanBelow thr l = false := by
  unfold PdfCropper.meanBelow
  cases hl : l.isEmpty with
  | true => simp [hl]
  | false =>
      simp only [hl, Bool.not_false, Bool.true_and, decide_eq_false_iff_not,
        not_lt]
      unfold PdfCropper.meanQ
      have hlen : 0 < l.length := by
        cases l with
        | nil => simp at hl
        | cons a t => simp
      apply (le_div_iff₀ (by exact_mod_cast hlen)).mpr
      exact cast_sum_ge thr l h

theorem toGray_ge (thr : Nat) (p : Pixel) (h1 : thr ≤ p.1)
    (h2 : thr ≤ p.2.1) (h3 : thr ≤ p.2.2) : thr ≤ PdfCropper.toGray p := by
  unfold PdfCropper.toGray
  rw [Nat.le_div_iff_mul_le (by norm_num)]
  omega

theorem nonWhite_false_of_ge (thr : Nat) (p : Pixel) (h1 : thr ≤ p.1)
    (h2 : thr ≤ p.2.1) (h3 : thr ≤ p.2.2) : nonWhite thr p = false := by
  simp only [nonWhite, Bool.or_eq_false_iff, decide_eq_false_iff_not, not_lt]
  exact ⟨⟨h1, h2⟩, h3⟩

theorem channelVal_ge (thr : Nat) (c : Nat) (p : Pixel) (h1 : thr ≤ p.1)
    (h2 : thr ≤ p.2.1) (h3 : thr ≤ p.2.2) :
    thr ≤ PdfProcessor.channelVal c p := by
  unfold PdfProcessor.channelVal
  split_ifs <;> assumption

/-- Claim C7.  On an image whose pixels all have every channel at or above
the threshold, every autocrop variant is the identity: the three crops of
src/pdf_processor_app.py and the three crops of src/Pdf_cropper.py all
return the image unchanged. -/
theorem autocrop_allwhite_noop (img : Img) (thr : Nat)
    (h : ∀ r ∈ img, ∀ p ∈ r, thr ≤ p.1 ∧ thr ≤ p.2.1 ∧ thr ≤ p.2.2) :
    PdfProcessor.crop_vertical_only img thr = img ∧
    PdfProcessor.crop_horizontal_only img thr = img ∧
    PdfProcessor.crop_both_fixed img thr = img ∧
    PdfCropper.crop_vertical_only img thr = img ∧
    PdfCropper.crop_horizontal_only img thr = img ∧
    PdfCropper.crop_both_fixed img thr = img := by
  have hnw : ∀ r ∈ img, ∀ p ∈ r, nonWhite thr p = false := fun r hr p hp =>
    nonWhite_false_of_ge thr p (h r hr p hp).1 (h r hr p hp).2.1
      (h r hr p hp).2.2
  have hrowsP : PdfProcessor.nonWhiteRowIdxs img thr = [] := by
    apply List.filter_eq_nil_iff.mpr
    intro i hi hcon
    rw [List.mem_range] at hi
    obtain ⟨p, hpmem, hpnw⟩ := List.any_eq_true.mp hcon
    have hmem : img.getD i [] ∈ img := by
      rw [List.getD_eq_getElem _ _ hi]
      exact List.getElem_mem hi
    rw [hnw _ hmem p hpmem] at hpnw
    exact Bool.noConfusion hpnw
  have hcolsP : PdfProcessor.nonWhiteColIdxs img thr = [] := by
    apply List.filter_eq_nil_iff.mpr
    intro j _ hcon
    obtain ⟨r, hrmem, hrj⟩ := List.any_eq_true.mp hcon
    cases hq : r.get? j with
    | none => rw [hq] at hrj; simp at hrj
    | some p =>
        rw [hq] at hrj
        simp only [Option.map_some', Option.getD_some] at hrj
        rw [hnw r hrmem p (List.get?_mem hq)] at hrj
        exact Bool.noConfusion hrj
  have hchan : PdfProcessor.nonWhiteChannelIdxs img thr = [] := by
    apply List.filter_eq_nil_iff.mpr
    intro c _ hcon
    obtain ⟨r, hrmem, hrc⟩ := List.any_eq_true.mp hcon
    obtain ⟨p, hpmem, hplt⟩ := List.any_eq_true.mp hrc
    have := channelVal_ge thr c p (h r hrmem p hpmem).1
      (h r hrmem p hpmem).2.1 (h r hrmem p hpmem).2.2
    simp only [decide_eq_true_eq] at hplt
    omega
  have hgray : ∀ r ∈ PdfCropper.grayImg img, ∀ v ∈ r, thr ≤ v := by
    intro r hr v hv
    obtain ⟨r0, hr0, rfl⟩ := List.mem_map.mp hr
    obtain ⟨p, hp, rfl⟩ := List.mem_map.mp hv
    exact toGray_ge thr p (h r0 hr0 p hp).1 (h r0 hr0 p hp).2.1
      (h r0 hr0 p hp).2.2
  have hrowsC : PdfCropper.rowIdxsBelow img thr = [] := by
    apply List.filter_eq_nil_iff.mpr
    intro i hi hcon
    rw [List.mem_range] at hi
    have hlen : i < (PdfCropper.grayImg img).length := by
      simpa [PdfCropper.grayImg] using hi
    have hmem : (PdfCropper.grayImg img).getD i [] ∈ PdfCropper.grayImg img := by
      rw [List.getD_eq_getElem _ _ hlen]
      exact List.getElem_mem hlen
    rw [meanBelow_false_of_ge thr _ (hgray _ hmem)] at hcon
    exact Bool.noConfusion hcon
  have hcolsC : PdfCropper.colIdxsBelow img thr = [] := by
    apply List.filter_eq_nil_iff.mpr
    intro j _ hcon
    have hvals : ∀ v ∈ PdfCropper.colVals (PdfCropper.grayImg img) j, thr ≤ v := by
      intro v hv
      obtain ⟨r, hr, hrv⟩ := List.mem_filterMap.mp hv
      exact hgray r hr v (List.get?_mem hrv)
    rw [meanBelow_false_of_ge thr _ hvals] at hcon
    exact Bool.noConfusion hcon
  have hv1 : PdfProcessor.crop_vertical_only img thr = img := by
    rw [PdfProcessor.crop_vertical_only, hrowsP]
    rfl
  have hh1 : PdfProcessor.crop_horizontal_only img thr = img := by
    rw [PdfProcessor.crop_horizontal_only, hchan]
    rfl
  have hb1 : PdfProcessor.crop_both_fixed img thr = img := by
    rw [PdfProcessor.crop_both_fixed, PdfProcessor.contentBBox, hrowsP, hcolsP]
    rfl
  have hv2 : PdfCropper.crop_vertical_only img thr = img := by
    rw [PdfCropper.crop_vertical_only, hrowsC]
    rfl
  have hh2 : PdfCropper.crop_horizontal_only img thr = img := by
    rw [PdfCropper.crop_horizontal_only, hcolsC]
    rfl
  have hb2 : PdfCropper.crop_both_fixed img thr = img := by
    rw [PdfCropper.crop_both_fixed, hv2, hh2]
  exact ⟨hv1, hh1, hb1, hv2, hh2, hb2⟩

/-- Witness for autocrop_allwhite_noop: a 2 x 2 flat-white image at the
default threshold 245 passes through every crop unchanged. -/
theorem autocrop_allwhite_noop_witness :
    PdfProcessor.crop_vertical_only [[whitePx, whitePx], [whitePx, whitePx]] 245
        = [[whitePx, whitePx], [whitePx, whitePx]] ∧
    PdfProcessor.crop_horizontal_only [[whitePx, whitePx], [whitePx, whitePx]] 245
        = [[whitePx, whitePx], [whitePx, whitePx]] ∧
    PdfProcessor.crop_both_fixed [[whitePx, whitePx], [whitePx, whitePx]] 245
        = [[whitePx, whitePx], [whitePx, whitePx]] ∧
    PdfCropper.crop_vertical_only [[whitePx, whitePx], [whitePx, whitePx]] 245
        = [[whitePx, whitePx], [whitePx, whitePx]] ∧
    PdfCropper.crop_horizontal_only [[whitePx, whitePx], [whitePx, whitePx]] 245
        = [[whitePx, whitePx], [whitePx, whitePx]] ∧
    PdfCropper.crop_both_fixed [[whitePx, whitePx], [whitePx, whitePx]] 245
        = [[whitePx, whitePx], [whitePx, whitePx]] :=
  autocrop_allwhite_noop [[whitePx, whitePx], [whitePx, whitePx]] 245
    (by decide)

theorem mapIdx_grid_get? (P Q : Nat → Prop) [DecidablePred P] [DecidablePred Q]
    (c : Pixel) (img : Img) (i j : Nat) :
    ((img.mapIdx (fun i2 r =>
        if P i2 then r.mapIdx (fun j2 p => if Q j2 then c else p) else r)).getD
          i []).get? j
      = ((img.getD i []).get? j).map (fun p => if P i ∧ Q j then c else p) := by
  rw [List.getD_eq_getElem?_getD, List.getD_eq_getElem?_getD,
    List.getElem?_mapIdx]
  cases himg : img[i]? with
  | none => simp
  | some r =>
      simp only [Option.map_some', Option.getD_some]
      by_cases hP : P i
      · rw [if_pos hP, List.get?_eq_getElem?, List.get?_eq_getElem?,
          List.getElem?_mapIdx]
        cases hr : r[j]? with
        | none => simp
        | some p =>
            simp only [Option.map_some']
            by_cases hQ : Q j
            · rw [if_pos hQ, if_pos ⟨hP, hQ⟩]
            · rw [if_neg hQ, if_neg (fun hc => hQ hc.2)]
      · rw [if_neg hP]
        cases hr : r.get? j with
        | none => simp
        | some p =>
            simp only [Option.map_some']
            rw [if_neg (fun hc => hP hc.1)]

/-- Claim C10.  In the Pdf_cropper variant, logo removal with the smart
method returns exactly the image that the white method returns: the
rectangle x1 <= j < x2, y1 <= i < y2 is overwritten with 255 on every
channel and every pixel outside it is unchanged. -/
theorem cropper_smart_eq_white (img : Img) (x1 y1 x2 y2 i j : Nat) (p : Pixel)
    (hp : (img.getD i []).get? j = some p) :
    PdfCropper.remove_logo_precise img (x1, y1, x2, y2) "smart"
      = PdfCropper.remove_logo_precise img (x1, y1, x2, y2) "white" ∧
    ((PdfCropper.remove_logo_precise img (x1, y1, x2, y2) "smart").getD
        i []).get? j
      = some (if y1 ≤ i ∧ i < y2 ∧ x1 ≤ j ∧ j < x2 then whitePx else p) := by
  constructor
  · simp [PdfCropper.remove_logo_precise]
  · simp only [PdfCropper.remove_logo_precise]
    rw [if_neg (by simp), PdfCropper.fillRectExcl]
    rw [mapIdx_grid_get? (fun a => y1 ≤ a ∧ a < y2) (fun b => x1 ≤ b ∧ b < x2)
      whitePx img i j, hp]
    simp only [Option.map_some']
    have hiff : ((y1 ≤ i ∧ i < y2) ∧ (x1 ≤ j ∧ j < x2))
        ↔ (y1 ≤ i ∧ i < y2 ∧ x1 ≤ j ∧ j < x2) := by tauto
    rw [if_congr hiff rfl rfl]

/-- Witness for cropper_smart_eq_white: a single-pixel image with the
region covering it is turned flat white by the smart method exactly as by
the white method. -/
theorem cropper_smart_eq_white_witness :
    PdfCropper.remove_logo_precise [[(7, 7, 7)]] (0, 0, 1, 1) "smart"
      = PdfCropper.remove_logo_precise [[(7, 7, 7)]] (0, 0, 1, 1) "white" ∧
    ((PdfCropper.remove_logo_precise [[(7, 7, 7)]] (0, 0, 1, 1) "smart").getD
        0 []).get? 0
      = some (if 0 ≤ 0 ∧ 0 < 1 ∧ 0 ≤ 0 ∧ 0 < 1 then whitePx
          else ((7, 7, 7) : Pixel)) :=
  cropper_smart_eq_white [[(7, 7, 7)]] 0 0 1 1 0 0 (7, 7, 7) rfl

/-- Claim C6 (amended).  The smart method of the pdf_processor_app variant
fills the rectangle (inclusive of its far corners, as PIL draws it) with
smartFillColor, leaves every pixel outside unchanged, and falls back to
flat white when no border strip qualifies; smartFillColor averages the
mean colors of the 10 pixel strips outside the four region edges, a strip
being included only under the strict conditions y1 > 10, y2 < height - 10,
x1 > 10, x2 < width - 10 respectively. -/
theorem processor_smart_fill (img : Img) (x1 y1 x2 y2 i j : Nat) (p : Pixel)
    (hp : (img.getD i []).get? j = some p) :
    ((PdfProcessor.remove_logo_precise img (x1, y1, x2, y2) "smart").getD
        i []).get? j
      = some (if y1 ≤ i ∧ i ≤ y2 ∧ x1 ≤ j ∧ j ≤ x2
          then PdfProcessor.smartFillColor img x1 y1 x2 y2 else p) ∧
    (PdfProcessor.smartSamples img x1 y1 x2 y2 = [] →
      PdfProcessor.smartFillColor img x1 y1 x2 y2 = whitePx) := by
  constructor
  · simp only [PdfProcessor.remove_logo_precise]
    rw [if_neg (by simp), PdfProcessor.fillRectIncl]
    rw [mapIdx_grid_get? (fun a => y1 ≤ a ∧ a ≤ y2) (fun b => x1 ≤ b ∧ b ≤ x2)
      (PdfProcessor.smartFillColor img x1 y1 x2 y2) img i j, hp]
    simp only [Option.map_some']
    have hiff : ((y1 ≤ i ∧ i ≤ y2) ∧ (x1 ≤ j ∧ j ≤ x2))
        ↔ (y1 ≤ i ∧ i ≤ y2 ∧ x1 ≤ j ∧ j ≤ x2) := by tauto
    rw [if_congr hiff rfl rfl]
  · intro hS
    simp only [PdfProcessor.smartFillColor, hS, List.length_nil]
    rfl

/-- Witness for processor_smart_fill: a single-pixel image, region
(0, 0, 0, 0); no strip qualifies, so the pixel is filled flat white. -/
theorem processor_smart_fill_witness :
    ((PdfProcessor.remove_logo_precise [[(9, 9, 9)]] (0, 0, 0, 0) "smart").getD
        0 []).get? 0
      = some (if 0 ≤ 0 ∧ 0 ≤ 0 ∧ 0 ≤ 0 ∧ 0 ≤ 0
          then PdfProcessor.smartFillColor [[(9, 9, 9)]] 0 0 0 0
          else ((9, 9, 9) : Pixel)) ∧
    (PdfProcessor.smartSamples [[(9, 9, 9)]] 0 0 0 0 = [] →
      PdfProcessor.smartFillColor [[(9, 9, 9)]] 0 0 0 0 = whitePx) :=
  processor_smart_fill [[(9, 9, 9)]] 0 0 0 0 0 0 (9, 9, 9) rfl

/-- A 30 x 30 image of uniform gray (100, 100, 100) pixels, the input on
which the sample-inclusion conditions diverge from within-bounds. -/
def imgGray : Img := List.replicate 30 (List.replicate 30 (100, 100, 100))

/-- Claim C6 counterexample.  For the region (10, 10, 20, 20) in the
30 x 30 gray image all four 10 pixel border strips lie within the image
bounds, and each strip has mean color (100, 100, 100), so the claimed
average fill is (100, 100, 100); but the code samples no strip at all
(its conditions are strict: 10 > 10 and 20 < 30 - 10 are false) and fills
the region with flat white instead. -/
theorem smart_sample_boundary_excluded :
    (10 - 10 ≥ (0 : Nat) ∧ 20 + 10 ≤ imgGray.length ∧ 20 + 10 ≤ Img.width imgGray) ∧
    PdfProcessor.smartSamples imgGray 10 10 20 20 = [] ∧
    ((PdfProcessor.remove_logo_precise imgGray (10, 10, 20, 20) "smart").getD
        15 []).get? 15 = some whitePx ∧
    PdfProcessor.subRegion imgGray 0 10 10 20
      = List.replicate 100 (100, 100, 100) ∧
    PdfProcessor.meanColor (List.replicate 100 ((100 : Nat), 100, 100))
      = ((100 : ℚ), 100, 100) ∧
    whitePx ≠ ((100 : Nat), (100 : Nat), (100 : Nat)) := by
  refine ⟨by decide, by decide, by decide, by decide, ?_, by decide⟩
  simp only [PdfProcessor.meanColor, List.map_replicate, List.sum_replicate,
    List.length_replicate, nsmul_eq_mul]
  norm_num

/-- Claim C9.  A logo rectangle entered with x2 <= x1 or y2 <= y1 is
silently repaired rather than rejected: the degenerate edge is replaced by
one 10 units from the corresponding start edge (x2 becomes x1 + 10,
y2 becomes y1 + 10), the other components are unchanged, and the repaired
box is strictly non-degenerate along both axes. -/
theorem logo_coords_min_box (x1 y1 x2 y2 : Nat) (h : x2 ≤ x1 ∨ y2 ≤ y1) :
    (PdfProcessor.repairLogoCoords x1 y1 x2 y2).1 = x1 ∧
    (PdfProcessor.repairLogoCoords x1 y1 x2 y2).2.1 = y1 ∧
    (x2 ≤ x1 → (PdfProcessor.repairLogoCoords x1 y1 x2 y2).2.2.1 = x1 + 10) ∧
    (x1 < x2 → (PdfProcessor.repairLogoCoords x1 y1 x2 y2).2.2.1 = x2) ∧
    (y2 ≤ y1 → (PdfProcessor.repairLogoCoords x1 y1 x2 y2).2.2.2 = y1 + 10) ∧
    (y1 < y2 → (PdfProcessor.repairLogoCoords x1 y1 x2 y2).2.2.2 = y2) ∧
    x1 < (PdfProcessor.repairLogoCoords x1 y1 x2 y2).2.2.1 ∧
    y1 < (PdfProcessor.repairLogoCoords x1 y1 x2 y2).2.2.2 := by
  unfold PdfProcessor.repairLogoCoords
  by_cases hx : x2 ≤ x1 <;> by_cases hy : y2 ≤ y1 <;>
    simp [hx, hy] <;> omega

/-- Witness for logo_coords_min_box at the degenerate input
(x1, y1, x2, y2) = (5, 7, 3, 20): x2 is repaired to 15, y2 stays 20. -/
theorem logo_coords_min_box_witness :
    (PdfProcessor.repairLogoCoords 5 7 3 20).1 = 5 ∧
    (PdfProcessor.repairLogoCoords 5 7 3 20).2.1 = 7 ∧
    (3 ≤ 5 → (PdfProcessor.repairLogoCoords 5 7 3 20).2.2.1 = 5 + 10) ∧
    (5 < 3 → (PdfProcessor.repairLogoCoords 5 7 3 20).2.2.1 = 3) ∧
    (20 ≤ 7 → (PdfProcessor.repairLogoCoords 5 7 3 20).2.2.2 = 7 + 10) ∧
    (7 < 20 → (PdfProcessor.repairLogoCoords 5 7 3 20).2.2.2 = 20) ∧
    5 < (PdfProcessor.repairLogoCoords 5 7 3 20).2.2.1 ∧
    7 < (PdfProcessor.repairLogoCoords 5 7 3 20).2.2.2 :=
  logo_coords_min_box 5 7 3 20 (Or.inl (by norm_num))

end Spec2Proof
